import Mathlib

set_option maxHeartbeats 1000000
set_option maxRecDepth 8000

attribute [local semireducible] Rat.mul Rat.add Rat.sub Rat.inv

/-!
Verification of the raw-PCM explorer core (src/App.tsx of pcm-huny-dev).

Shallow embedding conventions:
* a raw byte buffer is a `List ℕ` whose entries are below 256 (stated as a
  hypothesis where it matters; out-of-range reads use the `DataView` value 0
  through `List.getD`);
* JS numbers are modelled by exact rationals — every arithmetic operation the
  verified paths perform (division by powers of two, clamping, comparison,
  small sums) is exact in IEEE doubles, so `ℚ` is a faithful model there;
* a decoded sample is `Option ℚ`: `some q` is an ordinary finite float value
  and `none` models IEEE NaN, which only the float32 decode branch can
  produce.  The `f32...` helpers give NaN the JS semantics: it propagates
  through arithmetic and every comparison against it is false.
-/

/-- The source's `Fmt` union type (src/App.tsx line 14). -/
inductive Fmt where
  | f8u
  | f16le
  | f16be
  | f24le
  | f24be
  | f32le
  | f32f
  | mulaw
  | alaw
  | vox
  | g721
deriving DecidableEq, Repr

/-- The source's `Cand` record (src/App.tsx line 15). -/
structure Cand where
  id : String
  fmt : Fmt
  ch : ℕ
  label : String
  bytesPerSample : ℕ
deriving DecidableEq, Repr

/-- The string value each `Fmt` constructor has in the source union type. -/
def fmtStr : Fmt → String
  | .f8u => "8u"
  | .f16le => "16le"
  | .f16be => "16be"
  | .f24le => "24le"
  | .f24be => "24be"
  | .f32le => "32le"
  | .f32f => "32f"
  | .mulaw => "mulaw"
  | .alaw => "alaw"
  | .vox => "vox"
  | .g721 => "g721"

/-- The `fmts` table of the candidate enumerator (src/App.tsx lines 32-42):
format, bytes per sample, display name, in source order. -/
def fmtsTable : List (Fmt × ℕ × String) :=
  [(.f16le, 2, "16LE"),
   (.f16be, 2, "16BE"),
   (.f8u, 1, "8U"),
   (.f24le, 3, "24LE"),
   (.f24be, 3, "24BE"),
   (.f32le, 4, "32LE"),
   (.f32f, 4, "32F"),
   (.mulaw, 1, "µ-law"),
   (.alaw, 1, "A-law")]

/-- One candidate as built inside the enumerator loop (src/App.tsx lines 47-53). -/
def mkCand (fmt : Fmt) (bps : ℕ) (name : String) (ch : ℕ) : Cand :=
  { id := fmtStr fmt ++ "-" ++ toString ch ++ "ch"
    fmt := fmt
    ch := ch
    label := name ++ " • " ++ toString ch ++ "ch"
    bytesPerSample := bps }

/-- The full candidate list (src/App.tsx lines 31-61): every format of the
table crossed with channel counts 1 then 2, followed by the two
FFmpeg-only candidates pushed at the end. -/
def candidatesList : List Cand :=
  (fmtsTable.map (fun f => [mkCand f.1 f.2.1 f.2.2 1, mkCand f.1 f.2.1 f.2.2 2])).flatten ++
    [{ id := "vox-1ch", fmt := .vox, ch := 1, label := "VOX(OKI ADPCM) • 1ch", bytesPerSample := 1 },
     { id := "g721-1ch", fmt := .g721, ch := 1, label := "G.721 ADPCM • 1ch", bytesPerSample := 1 }]

/-- The 16LE mono candidate (first element of `candidatesList`). -/
def cand16le1 : Cand := mkCand .f16le 2 "16LE" 1

/-- The 16LE stereo candidate (second element of `candidatesList`). -/
def cand16le2 : Cand := mkCand .f16le 2 "16LE" 2

/-- `muLawToLinear` (src/App.tsx lines 672-679): complement the byte, split
into sign bit, exponent bits 6-4 and mantissa bits 3-0, rebuild the biased
magnitude and remove the bias. -/
def muLawToLinear (muByte : ℕ) : ℤ :=
  let m := 255 - muByte % 256
  let sign : ℤ := if 128 ≤ m then -1 else 1
  let exponent := (m / 16) % 8
  let mantissa := m % 16
  let magnitude := (mantissa * 8 + 132) * 2 ^ exponent
  sign * ((magnitude : ℤ) - 132)

/-- `aLawToLinear` (src/App.tsx lines 682-689): XOR with 0x55, take the low
nibble shifted left 4, add 0x100 for segments ≥ 1, shift by segment − 1 for
segments > 1; bit 7 set means positive. -/
def aLawToLinear (aVal : ℕ) : ℤ :=
  let a := Nat.xor (aVal % 256) 85
  let t0 := (a % 16) * 16
  let seg := (a / 16) % 8
  let t1 := if 1 ≤ seg then t0 + 256 else t0
  let t2 := if 1 < seg then t1 * 2 ^ (seg - 1) else t1
  if 128 ≤ a then (t2 : ℤ) else -(t2 : ℤ)

/-- Modelled from the spec: the standard ITU-T G.711 A-law inverse (the
reference table the spec's companding property appeals to, which is not part
of the repository).  It differs from the repository's `aLawToLinear` by the
half-step offset: segment 0 adds 8, higher segments use offset 0x108 in place
of 0x100. -/
def aLawToLinearStd (aVal : ℕ) : ℤ :=
  let a := Nat.xor (aVal % 256) 85
  let t0 := (a % 16) * 16
  let seg := (a / 16) % 8
  let mag := if 1 ≤ seg then (t0 + 264) * 2 ^ (seg - 1) else t0 + 8
  if 128 ≤ a then (mag : ℤ) else -(mag : ℤ)

/-- Decoded-sample type: `some q` is a finite float value, `none` is NaN. -/
abbrev F32 := Option ℚ

/-- JS addition on sample values: NaN propagates. -/
def f32add : F32 → F32 → F32
  | some a, some b => some (a + b)
  | _, _ => none

/-- JS multiplication on sample values: NaN propagates. -/
def f32mul : F32 → F32 → F32
  | some a, some b => some (a * b)
  | _, _ => none

/-- JS subtraction on sample values: NaN propagates. -/
def f32sub : F32 → F32 → F32
  | some a, some b => some (a - b)
  | _, _ => none

/-- JS division of a sample value by a nonzero rational constant. -/
def f32divQ : F32 → ℚ → F32
  | some a, q => some (a / q)
  | none, _ => none

/-- JS `x < c`: false when `x` is NaN. -/
def f32ltc (x : F32) (c : ℚ) : Bool :=
  match x with
  | some a => decide (a < c)
  | none => false

/-- JS `x > c`: false when `x` is NaN. -/
def f32gtc (x : F32) (c : ℚ) : Bool :=
  match x with
  | some a => decide (c < a)
  | none => false

/-- JS `Math.max(0, x)`: NaN stays NaN. -/
def f32max0 : F32 → F32
  | some a => some (max 0 a)
  | none => none

/-- `Math.abs` on a finite value. -/
def jsAbs (a : ℚ) : ℚ := if a < 0 then -a else a

/-- The clamp `Math.max(-1, Math.min(1, q))` on a finite value. -/
def clampQ (q : ℚ) : ℚ := max (-1) (min 1 q)

/-- `DataView.getInt16` reassembly: interpret an unsigned 16-bit word as a
signed two's-complement value. -/
def sign16 (v : ℕ) : ℤ := if v < 32768 then (v : ℤ) else (v : ℤ) - 65536

/-- Sign extension of a 24-bit word (src/App.tsx line 614). -/
def sign24 (v : ℕ) : ℤ := if v < 8388608 then (v : ℤ) else (v : ℤ) - 16777216

/-- `DataView.getInt32` reassembly. -/
def sign32 (v : ℕ) : ℤ := if v < 2147483648 then (v : ℤ) else (v : ℤ) - 4294967296

/-- `DataView.getFloat32(offset, true)` followed by the source's clamp
`Math.max(-1, Math.min(1, f))` (src/App.tsx lines 632-641): a NaN payload
survives the clamp (`none`), infinities clamp to ±1, and finite values —
normal or subnormal — are exact rationals. -/
def decodeSample32f (b0 b1 b2 b3 : ℕ) : F32 :=
  let bits := b0 % 256 + 256 * (b1 % 256) + 65536 * (b2 % 256) + 16777216 * (b3 % 256)
  let sgn := bits / 2147483648
  let expo := (bits / 8388608) % 256
  let mant := bits % 8388608
  if expo = 255 then
    if mant = 0 then (if sgn = 1 then some (-1) else some 1) else none
  else
    let mag : ℚ :=
      if expo = 0 then (mant : ℚ) * (2 : ℚ) ^ (-(149 : ℤ))
      else ((8388608 + mant : ℕ) : ℚ) * (2 : ℚ) ^ ((expo : ℤ) - 150)
    some (clampQ (if sgn = 1 then -mag else mag))

/-- One sample read of `decodeRawToFloat32` (src/App.tsx lines 576-666) at
byte offset `off`, per format.  The `vox`/`g721` cases are unreachable:
`decodeRawToFloat32` throws before reading any sample for them. -/
def decodeSample (fmt : Fmt) (buf : List ℕ) (off : ℕ) : F32 :=
  match fmt with
  | .f8u => some (((buf.getD off 0 : ℚ) - 128) / 128)
  | .f16le => some (clampQ ((sign16 (buf.getD off 0 + 256 * buf.getD (off + 1) 0) : ℚ) / 32768))
  | .f16be => some (clampQ ((sign16 (buf.getD (off + 1) 0 + 256 * buf.getD off 0) : ℚ) / 32768))
  | .f24le => some (clampQ ((sign24 (buf.getD off 0 + 256 * buf.getD (off + 1) 0 +
      65536 * buf.getD (off + 2) 0) : ℚ) / 8388608))
  | .f24be => some (clampQ ((sign24 (buf.getD (off + 2) 0 + 256 * buf.getD (off + 1) 0 +
      65536 * buf.getD off 0) : ℚ) / 8388608))
  | .f32le => some (clampQ ((sign32 (buf.getD off 0 + 256 * buf.getD (off + 1) 0 +
      65536 * buf.getD (off + 2) 0 + 16777216 * buf.getD (off + 3) 0) : ℚ) / 2147483648))
  | .f32f => decodeSample32f (buf.getD off 0) (buf.getD (off + 1) 0)
      (buf.getD (off + 2) 0) (buf.getD (off + 3) 0)
  | .mulaw => some ((muLawToLinear (buf.getD off 0) : ℚ) / 32768)
  | .alaw => some ((aLawToLinear (buf.getD off 0) : ℚ) / 32768)
  | .vox => none
  | .g721 => none

/-- `framesAvailable` (src/App.tsx lines 108-111). -/
def framesAvailable (buf : List ℕ) (cand : Cand) : ℕ :=
  buf.length / (cand.bytesPerSample * cand.ch)

/-- `previewFramesFor` (src/App.tsx lines 113-117). -/
def previewFramesFor (buf : List ℕ) (cand : Cand) (assumedSR previewSeconds : ℕ) : ℕ :=
  min (framesAvailable buf cand) (assumedSR * previewSeconds)

/-- The frame count `decodeRawToFloat32` actually decodes (src/App.tsx
lines 565-566): available frames, capped by the preview limit if given. -/
def totalFramesFor (buf : List ℕ) (cand : Cand) : Option ℕ → ℕ
  | some p => min (buf.length / (cand.bytesPerSample * cand.ch)) p
  | none => buf.length / (cand.bytesPerSample * cand.ch)

/-- `decodeRawToFloat32` (src/App.tsx lines 560-669).  The source returns the
single-element `[new Float32Array()]` when no full frame is available (before
dispatching on the format), fills one `Float32Array` per channel otherwise,
reading sample `(i, c)` at offset `i * frameSize + c * bytesPerSample`, and
falls through to `throw` for the FFmpeg-only formats. -/
def decodeRawToFloat32 (buf : List ℕ) (cand : Cand) (previewFrames : Option ℕ) :
    Except String (List (List F32)) :=
  let totalFrames := totalFramesFor buf cand previewFrames
  if totalFrames = 0 then .ok [[]]
  else if cand.fmt = .vox ∨ cand.fmt = .g721 then .error "지원하지 않는 fmt"
  else
    .ok ((List.range cand.ch).map fun c =>
      (List.range totalFrames).map fun i =>
        decodeSample cand.fmt buf (i * (cand.bytesPerSample * cand.ch) + c * cand.bytesPerSample))

/-- `downmixMono` (src/App.tsx lines 512-519): empty input stays empty, mono
is the identity, otherwise average the first two channels over their common
length. -/
def downmixMono (chs : List (List F32)) : List F32 :=
  match chs with
  | [] => []
  | [c] => c
  | c0 :: c1 :: _ =>
    (List.range (min c0.length c1.length)).map fun i =>
      f32mul (some (1 / 2)) (f32add (c0.getD i none) (c1.getD i none))

/-- The running sum `s` of the heuristics (src/App.tsx lines 543, 555). -/
def sumF (x : List F32) : F32 := x.foldl f32add (some 0)

/-- The running sum of squares `s2` of the heuristics. -/
def sumSqF (x : List F32) : F32 :=
  x.foldl (fun acc v => f32add acc (f32mul v v)) (some 0)

/-- `isSilentLike` (src/App.tsx lines 541-545): empty buffers count as
silent; otherwise flag when the population variance is below 1e-6. -/
def isSilentLike (x : List F32) : Bool :=
  if x.length = 0 then true
  else
    let n : ℚ := x.length
    let mean := f32divQ (sumF x) n
    let v := f32sub (f32divQ (sumSqF x) n) (f32mul mean mean)
    f32ltc v (1 / 1000000)

/-- The per-sample test of the clipping counter: `Math.abs(x[i]) > 0.99`,
false on NaN. -/
def clipPred (v : F32) : Bool :=
  match v with
  | some a => decide ((99 : ℚ) / 100 < jsAbs a)
  | none => false

/-- `isHeavilyClipped` (src/App.tsx lines 547-551): empty buffers are not
clipped; otherwise flag when the fraction of samples with `|v| > 0.99`
exceeds 0.25. -/
def isHeavilyClipped (x : List F32) : Bool :=
  if x.length = 0 then false
  else
    let c := x.countP clipPred
    decide ((1 : ℚ) / 4 < (c : ℚ) / (x.length : ℚ))

/-- `isScaleWeird` (src/App.tsx lines 553-558): empty buffers are anomalous;
otherwise the source tests `Math.sqrt v < 1e-4 || Math.sqrt v > 5` on
`v = Math.max(0, s2/n - mean^2)`.  Since `v` is nonnegative and squaring is
monotone on nonnegatives the test is embedded as `v < 1e-8 or v > 25`; a NaN
`v` fails both comparisons in the source and here. -/
def isScaleWeird (x : List F32) : Bool :=
  if x.length = 0 then true
  else
    let n : ℚ := x.length
    let mean := f32divQ (sumF x) n
    let v := f32max0 (f32sub (f32divQ (sumSqF x) n) (f32mul mean mean))
    f32ltc v (1 / 100000000) || f32gtc v 25

/-- Hidden-reason values; the source uses Korean strings:
silent = "무음/평탄", clipped = "과도한 클리핑", scaleAnomaly = "스케일 이상",
decodeFailed = "디코드 실패", needsExternal = "FFmpeg 필요(버튼으로 디코드)". -/
inductive Reason where
  | silent
  | clipped
  | scaleAnomaly
  | decodeFailed
  | needsExternal
deriving DecidableEq, Repr

/-- The three heuristic filter toggles. -/
structure Flags where
  silent : Bool
  clip : Bool
  scale : Bool
deriving DecidableEq, Repr

/-- The value `decodePreview` returns per candidate. -/
structure Card where
  chData : List (List F32)
  hiddenReason : Option Reason
deriving DecidableEq, Repr

/-- The `try` body of `decodePreview` after the FFmpeg-format guard, together
with its `catch` (src/App.tsx lines 80-98): any decode error becomes an empty
card with the decode-failed reason; otherwise downmix and apply the enabled
filters with the `??` chaining of the source (first assigned reason wins). -/
def tryBody (r : Except String (List (List F32))) (fl : Flags) : Card :=
  match r with
  | .error _ => { chData := [], hiddenReason := some .decodeFailed }
  | .ok chData =>
    let mono := downmixMono chData
    let h0 : Option Reason := none
    let h1 := if fl.silent && isSilentLike mono then some (h0.getD .silent) else h0
    let h2 := if fl.clip && isHeavilyClipped mono then some (h1.getD .clipped) else h1
    let h3 := if fl.scale && isScaleWeird mono then some (h2.getD .scaleAnomaly) else h2
    { chData := chData, hiddenReason := h3 }

/-- `decodePreview` (src/App.tsx lines 80-98). -/
def decodePreview (buf : List ℕ) (cand : Cand) (previewFrames : ℕ) (fl : Flags) : Card :=
  if cand.fmt = .vox ∨ cand.fmt = .g721 then
    { chData := [], hiddenReason := some .needsExternal }
  else
    tryBody (decodeRawToFloat32 buf cand (some previewFrames)) fl

/-- The configuration surface the preview effect reads. -/
structure Settings where
  assumedSR : ℕ
  previewSeconds : ℕ
  fl : Flags
  limitCandidates : ℕ

/-- One entry of the `cards` state. -/
structure CardItem where
  cand : Cand
  chData : List (List F32)
  hiddenReason : Option Reason
deriving DecidableEq, Repr

/-- The preview effect loop (src/App.tsx lines 129-149) on a completed run:
for each candidate up to the limit, skip it when the preview frame count is
zero, otherwise append its `decodePreview` card. -/
def previewBatch (buf : List ℕ) (s : Settings) : List CardItem :=
  (candidatesList.take s.limitCandidates).filterMap fun cand =>
    let pf := previewFramesFor buf cand s.assumedSR s.previewSeconds
    if pf = 0 then none
    else
      let r := decodePreview buf cand pf s.fl
      some { cand := cand, chData := r.chData, hiddenReason := r.hiddenReason }

/-- Truncation toward zero, the effect of the JS `| 0` coercion on a value
inside the int32 range. -/
def truncToZero (q : ℚ) : ℤ := if 0 ≤ q then ⌊q⌋ else ⌈q⌉

/-- One sample of `floatTo16PCMInterleaved` (src/App.tsx lines 691-701):
clamp to [-1,1], scale negatives by 32768 and non-negatives by 32767, then
truncate with `| 0`.  The scaled value lies within the int32 and int16
ranges, so `| 0` and the `Int16Array` store reduce to plain truncation; a NaN
sample truncates to 0. -/
def encode16Sample (v : F32) : ℤ :=
  match v with
  | none => 0
  | some x =>
    let c := max (-1) (min 1 x)
    truncToZero (if c < 0 then c * 32768 else c * 32767)

/-- `floatTo16PCMInterleaved` (src/App.tsx lines 691-701): frame-major,
channel-minor interleaving of the encoded samples; the frame count is the
first channel's length, and a missing sample reads as `undefined`, i.e. NaN. -/
def floatTo16PCMInterleaved (chs : List (List F32)) : List ℤ :=
  let n := (chs.headD []).length
  ((List.range n).map fun i => chs.map fun c => encode16Sample (c.getD i none)).flatten

/-- `writeStr` (src/App.tsx lines 731-733): ASCII code units of a tag. -/
def writeStr (s : String) : List ℕ := s.data.map Char.toNat

/-- Little-endian bytes of a 16-bit store (`DataView.setUint16`). -/
def le16 (v : ℕ) : List ℕ := [v % 256, v / 256 % 256]

/-- Little-endian bytes of a 32-bit store (`DataView.setUint32`). -/
def le32 (v : ℕ) : List ℕ := [v % 256, v / 256 % 256, v / 65536 % 256, v / 16777216 % 256]

/-- Little-endian bytes of `DataView.setInt16`: two's-complement wrap of the
integer to 16 bits. -/
def int16ToLEBytes (s : ℤ) : List ℕ := le16 (s % 65536).toNat

/-- `makeWav` (src/App.tsx lines 703-729): the sequential `DataView` writes
of the 44-byte RIFF/WAVE header followed by the interleaved samples. -/
def makeWav (pcm : List ℤ) (channels sampleRate : ℕ) : List ℕ :=
  let blockAlign := channels * 2
  let byteRate := sampleRate * blockAlign
  let dataSize := pcm.length * 2
  writeStr "RIFF" ++ le32 (36 + dataSize) ++ writeStr "WAVE" ++
    writeStr "fmt " ++ le32 16 ++ le16 1 ++ le16 channels ++ le32 sampleRate ++
    le32 byteRate ++ le16 blockAlign ++ le16 16 ++
    writeStr "data" ++ le32 dataSize ++ (pcm.map int16ToLEBytes).flatten

/-- Independent little-endian 16-bit reader, used to state header
properties. -/
def readU16LE (bs : List ℕ) (off : ℕ) : ℕ := bs.getD off 0 + 256 * bs.getD (off + 1) 0

/-- Independent little-endian 32-bit reader, used to state header
properties. -/
def readU32LE (bs : List ℕ) (off : ℕ) : ℕ :=
  bs.getD off 0 + 256 * bs.getD (off + 1) 0 + 65536 * bs.getD (off + 2) 0 +
    16777216 * bs.getD (off + 3) 0

/-- Two-at-a-time readout of a byte list as little-endian signed 16-bit
integers (the parse the 16LE decode loop performs, with a trailing odd byte
dropped). -/
def bytesToInt16sLE : List ℕ → List ℤ
  | b0 :: b1 :: rest => sign16 (b0 + 256 * b1) :: bytesToInt16sLE rest
  | _ => []

/-- The same readout carried to decoded sample values, exactly as the 16LE
branch of `decodeRawToFloat32` produces them. -/
def parse16F : List ℕ → List F32
  | b0 :: b1 :: rest =>
    some (clampQ ((sign16 (b0 + 256 * b1) : ℚ) / 32768)) :: parse16F rest
  | _ => []

/-- One period of a 16-bit little-endian mono sine at a quarter of the
sample rate with amplitude 16384: samples 0, 16384, 0, -16384. -/
def sineByteBlock : List ℕ := [0, 0, 0, 64, 0, 0, 0, 192]

/-- A 10000-byte 16-bit little-endian mono sine buffer (2500 periods). -/
def sineBuf : List ℕ := (List.replicate 1250 sineByteBlock).flatten

/-- The decoded samples of one `sineByteBlock` period. -/
def sineSampleBlock : List F32 := [some 0, some (1 / 2), some 0, some (-(1 / 2))]

/-! ## Helper lemmas -/

theorem clampQ_le (q : ℚ) : clampQ q ≤ 1 := by
  unfold clampQ
  rcases le_total 1 q with h | h
  · simp [min_eq_left, h]
  · have : min 1 q = q := min_eq_right h
    rw [this]
    rcases le_total (-1) q with h2 | h2
    · simpa [max_eq_right h2] using h
    · simp [max_eq_left h2]

theorem clampQ_ge (q : ℚ) : -1 ≤ clampQ q := le_max_left _ _

theorem clampQ_of_mem {q : ℚ} (h1 : -1 ≤ q) (h2 : q ≤ 1) : clampQ q = q := by
  unfold clampQ
  rw [min_eq_right h2, max_eq_right h1]

theorem jsAbs_eq_abs (a : ℚ) : jsAbs a = |a| := by
  unfold jsAbs
  rcases lt_or_le a 0 with h | h
  · rw [if_pos h, abs_of_neg h]
  · rw [if_neg (not_lt.mpr h), abs_of_nonneg h]

theorem countP_clipPred_map_some (l : List ℚ) :
    (l.map some).countP clipPred = l.countP fun v => decide ((99 : ℚ) / 100 < |v|) := by
  induction l with
  | nil => rfl
  | cons a t ih => simp [List.countP_cons, ih, clipPred, jsAbs_eq_abs]

/-! ## C10: heuristics on the empty mono buffer -/

/-- C10: on the empty mono buffer the clipping heuristic returns false while
the silent/flat and scale-anomaly heuristics both return true, so an empty
preview can be hidden as Silent or ScaleAnomaly but never as Clipped. -/
theorem c10_empty_buffer_heuristics :
    isHeavilyClipped ([] : List F32) = false ∧ isSilentLike ([] : List F32) = true ∧
      isScaleWeird ([] : List F32) = true := by
  decide

/-! ## C3: G.711 companding of the digital-silence bytes -/

/-- C3: the µ-law decode of byte 0xFF is the standard table value 0, but the
A-law decode of byte 0xD5 yields 0 where the standard G.711 reference table
gives 8 — the repository's A-law inverse omits the half-step offset. -/
theorem c3_alaw_silence_bug :
    muLawToLinear 255 = 0 ∧ aLawToLinear 213 = 0 ∧ aLawToLinearStd 213 = 8 ∧
      aLawToLinear 213 ≠ aLawToLinearStd 213 := by
  decide

/-! ## C2: the candidate enumerator -/

/-- C2 counterexample: the enumerated candidate list has 20 entries, not the
18 the claim states. -/
theorem c2_cx_twenty_candidates : candidatesList.length = 20 ∧ candidatesList.length ≠ 18 := by
  decide

/-- C2 amended: the enumerator deterministically produces a fixed list of
exactly 20 candidates — the 9 linear/companded encodings crossed with
channel counts {1,2} giving 18, plus the 2 mono-only ADPCM-family
candidates — in fixed order: format family order, then channel count
ascending, with the stable identifier strings shown. -/
theorem c2_amended_enumerator :
    candidatesList.length = 20 ∧
    candidatesList.map (fun c => (c.fmt, c.ch)) =
      [(.f16le, 1), (.f16le, 2), (.f16be, 1), (.f16be, 2), (.f8u, 1), (.f8u, 2),
       (.f24le, 1), (.f24le, 2), (.f24be, 1), (.f24be, 2), (.f32le, 1), (.f32le, 2),
       (.f32f, 1), (.f32f, 2), (.mulaw, 1), (.mulaw, 2), (.alaw, 1), (.alaw, 2),
       (.vox, 1), (.g721, 1)] ∧
    candidatesList.map Cand.id =
      ["16le-1ch", "16le-2ch", "16be-1ch", "16be-2ch", "8u-1ch", "8u-2ch",
       "24le-1ch", "24le-2ch", "24be-1ch", "24be-2ch", "32le-1ch", "32le-2ch",
       "32f-1ch", "32f-2ch", "mulaw-1ch", "mulaw-2ch", "alaw-1ch", "alaw-2ch",
       "vox-1ch", "g721-1ch"] := by
  decide

/-! ## C7: the clipping heuristic threshold -/

/-- C7: the clipping heuristic flags a (NaN-free) mono buffer exactly when
the fraction of samples with absolute value strictly above 0.99 strictly
exceeds 0.25; a buffer with exactly 30% of samples at ±1.0 and the rest 0 is
flagged, one at exactly 24% is not. -/
theorem c7_clip_threshold :
    (∀ l : List ℚ, isHeavilyClipped (l.map some) =
      decide (l ≠ [] ∧
        (1 : ℚ) / 4 < (l.countP (fun v => decide ((99 : ℚ) / 100 < |v|)) : ℚ) / l.length)) ∧
    isHeavilyClipped (List.replicate 2 (some (1 : ℚ)) ++ [some (-(1 : ℚ))] ++
      List.replicate 7 (some (0 : ℚ))) = true ∧
    isHeavilyClipped (List.replicate 3 (some (1 : ℚ)) ++ List.replicate 3 (some (-(1 : ℚ))) ++
      List.replicate 19 (some (0 : ℚ))) = false := by
  refine ⟨fun l => ?_, by decide, by decide⟩
  unfold isHeavilyClipped
  rcases eq_or_ne l [] with rfl | hne
  · simp
  · have hlen : (l.map some).length ≠ 0 := by simpa using fun h => hne (List.eq_nil_of_length_eq_zero h)
    rw [if_neg hlen]
    simp only [countP_clipPred_map_some, List.length_map]
    rw [decide_eq_decide]
    exact ⟨fun h => ⟨hne, h⟩, fun h => h.2⟩

/-! ## C6: verdict priority order -/

/-- C6: when the filters are enabled, a successfully decoded candidate's
verdict carries the first firing reason in the fixed priority order Silent,
then Clipped, then ScaleAnomaly — at most one hidden reason is reported even
when several heuristics fire. -/
theorem c6_verdict_priority (buf : List ℕ) (cand : Cand) (pf : ℕ) (fl : Flags)
    (out : List (List F32))
    (hfmt : ¬(cand.fmt = .vox ∨ cand.fmt = .g721))
    (hok : decodeRawToFloat32 buf cand (some pf) = .ok out) :
    (decodePreview buf cand pf fl).hiddenReason =
      (if fl.silent && isSilentLike (downmixMono out) then some .silent
       else if fl.clip && isHeavilyClipped (downmixMono out) then some .clipped
       else if fl.scale && isScaleWeird (downmixMono out) then some .scaleAnomaly
       else none) := by
  unfold decodePreview
  rw [if_neg hfmt, hok]
  by_cases h1 : (fl.silent && isSilentLike (downmixMono out)) = true
  · simp [tryBody, h1]
  · by_cases h2 : (fl.clip && isHeavilyClipped (downmixMono out)) = true
    · simp [tryBody, h1, h2]
    · by_cases h3 : (fl.scale && isScaleWeird (downmixMono out)) = true
      · simp [tryBody, h1, h2, h3]
      · simp [tryBody, h1, h2, h3]

/-- C6 witness: on a constant near-full-scale 16LE mono buffer all three
heuristics fire, and the verdict is Silent, the first in priority order. -/
theorem c6_verdict_priority_witness :
    isSilentLike (List.replicate 4 (some ((32767 : ℚ) / 32768))) = true ∧
    isHeavilyClipped (List.replicate 4 (some ((32767 : ℚ) / 32768))) = true ∧
    isScaleWeird (List.replicate 4 (some ((32767 : ℚ) / 32768))) = true ∧
    (decodePreview [255, 127, 255, 127, 255, 127, 255, 127] cand16le1 4
      ⟨true, true, true⟩).hiddenReason = some .silent := by
  refine ⟨by decide, by decide, by decide, ?_⟩
  have h := c6_verdict_priority [255, 127, 255, 127, 255, 127, 255, 127] cand16le1 4
    ⟨true, true, true⟩ [List.replicate 4 (some ((32767 : ℚ) / 32768))]
    (by decide) rfl
  rw [h]
  decide

/-! ## C8: decode failures are isolated -/

/-- C8: the preview pipeline's catch turns any decode error into a verdict
with the DecodeFailed reason and an empty preview buffer, and the batch loop
emits a card for every candidate with a positive preview frame count — one
candidate's outcome never removes another candidate from the batch. -/
theorem c8_decode_failure_isolated :
    (∀ (e : String) (fl : Flags),
      tryBody (.error e) fl = { chData := [], hiddenReason := some .decodeFailed }) ∧
    (∀ (buf : List ℕ) (s : Settings) (cand : Cand),
      cand ∈ candidatesList.take s.limitCandidates →
      0 < previewFramesFor buf cand s.assumedSR s.previewSeconds →
      { cand := cand
        chData := (decodePreview buf cand
          (previewFramesFor buf cand s.assumedSR s.previewSeconds) s.fl).chData
        hiddenReason := (decodePreview buf cand
          (previewFramesFor buf cand s.assumedSR s.previewSeconds) s.fl).hiddenReason :
        CardItem } ∈ previewBatch buf s) := by
  constructor
  · intro e fl
    rfl
  · intro buf s cand hmem hpf
    unfold previewBatch
    refine List.mem_filterMap.mpr ⟨cand, hmem, ?_⟩
    simp only [if_neg (Nat.pos_iff_ne_zero.mp hpf)]

/-- C8 witness: a concrete decode error maps to the DecodeFailed card, and a
concrete candidate with a positive preview frame count is in the batch. -/
theorem c8_decode_failure_isolated_witness :
    tryBody (.error "boom") ⟨true, true, true⟩ =
      { chData := [], hiddenReason := some .decodeFailed } ∧
    ({ cand := cand16le1
       chData := (decodePreview [0, 0] cand16le1
         (previewFramesFor [0, 0] cand16le1 8000 1) ⟨true, true, true⟩).chData
       hiddenReason := (decodePreview [0, 0] cand16le1
         (previewFramesFor [0, 0] cand16le1 8000 1) ⟨true, true, true⟩).hiddenReason :
       CardItem } ∈ previewBatch [0, 0] ⟨8000, 1, ⟨true, true, true⟩, 999⟩) := by
  refine ⟨c8_decode_failure_isolated.1 "boom" ⟨true, true, true⟩, ?_⟩
  exact c8_decode_failure_isolated.2 [0, 0] ⟨8000, 1, ⟨true, true, true⟩, 999⟩ cand16le1
    (by decide) (by decide)

/-! ## C9: the RIFF/WAVE container -/

theorem getD_drop_eq (bs : List ℕ) (n k : ℕ) : (bs.drop n).getD k 0 = bs.getD (n + k) 0 := by
  rw [List.getD_eq_getD_get?, List.getD_eq_getD_get?, List.get?_drop]

theorem readU32LE_eq_drop (bs : List ℕ) (off : ℕ) :
    readU32LE bs off = readU32LE (bs.drop off) 0 := by
  unfold readU32LE
  simp [getD_drop_eq]

theorem readU16LE_eq_drop (bs : List ℕ) (off : ℕ) :
    readU16LE bs off = readU16LE (bs.drop off) 0 := by
  unfold readU16LE
  simp [getD_drop_eq]

theorem length_flatten_int16 (pcm : List ℤ) :
    ((pcm.map int16ToLEBytes).flatten).length = 2 * pcm.length := by
  induction pcm with
  | nil => rfl
  | cons a t ih =>
    simp only [List.map_cons, List.flatten_cons, List.length_append, ih, int16ToLEBytes, le16]
    simp
    omega

theorem makeWav_bytes (pcm : List ℤ) (channels sampleRate : ℕ) :
    makeWav pcm channels sampleRate =
      82 :: 73 :: 70 :: 70 ::
      ((36 + pcm.length * 2) % 256) :: ((36 + pcm.length * 2) / 256 % 256) ::
      ((36 + pcm.length * 2) / 65536 % 256) :: ((36 + pcm.length * 2) / 16777216 % 256) ::
      87 :: 65 :: 86 :: 69 ::
      102 :: 109 :: 116 :: 32 ::
      16 :: 0 :: 0 :: 0 ::
      1 :: 0 ::
      (channels % 256) :: (channels / 256 % 256) ::
      (sampleRate % 256) :: (sampleRate / 256 % 256) ::
      (sampleRate / 65536 % 256) :: (sampleRate / 16777216 % 256) ::
      (sampleRate * (channels * 2) % 256) :: (sampleRate * (channels * 2) / 256 % 256) ::
      (sampleRate * (channels * 2) / 65536 % 256) :: (sampleRate * (channels * 2) / 16777216 % 256) ::
      (channels * 2 % 256) :: (channels * 2 / 256 % 256) ::
      16 :: 0 ::
      100 :: 97 :: 116 :: 97 ::
      (pcm.length * 2 % 256) :: (pcm.length * 2 / 256 % 256) ::
      (pcm.length * 2 / 65536 % 256) :: (pcm.length * 2 / 16777216 % 256) ::
      (pcm.map int16ToLEBytes).flatten := rfl

/-- C9: `makeWav` emits exactly the 44-byte little-endian RIFF/WAVE header —
"RIFF", chunk size 36 plus the data size, "WAVE", a "fmt " chunk of size 16
with format tag 1, the given channel count and sample rate, byte rate
`sampleRate*channelCount*2`, block align `channelCount*2`, 16 bits per
sample — followed by the interleaved 16-bit samples as the "data" chunk, so
the output length is 44 plus twice the sample count. -/
theorem c9_wav_container (pcm : List ℤ) (channels sampleRate : ℕ)
    (hch : channels * 2 < 65536) (hbr : sampleRate * (channels * 2) < 4294967296)
    (hsr : sampleRate < 4294967296) (hdata : 36 + pcm.length * 2 < 4294967296) :
    (makeWav pcm channels sampleRate).length = 44 + 2 * pcm.length ∧
    (makeWav pcm channels sampleRate).take 4 = [82, 73, 70, 70] ∧
    readU32LE (makeWav pcm channels sampleRate) 4 = 36 + pcm.length * 2 ∧
    ((makeWav pcm channels sampleRate).drop 8).take 4 = [87, 65, 86, 69] ∧
    ((makeWav pcm channels sampleRate).drop 12).take 4 = [102, 109, 116, 32] ∧
    readU32LE (makeWav pcm channels sampleRate) 16 = 16 ∧
    readU16LE (makeWav pcm channels sampleRate) 20 = 1 ∧
    readU16LE (makeWav pcm channels sampleRate) 22 = channels ∧
    readU32LE (makeWav pcm channels sampleRate) 24 = sampleRate ∧
    readU32LE (makeWav pcm channels sampleRate) 28 = sampleRate * (channels * 2) ∧
    readU16LE (makeWav pcm channels sampleRate) 32 = channels * 2 ∧
    readU16LE (makeWav pcm channels sampleRate) 34 = 16 ∧
    ((makeWav pcm channels sampleRate).drop 36).take 4 = [100, 97, 116, 97] ∧
    readU32LE (makeWav pcm channels sampleRate) 40 = pcm.length * 2 ∧
    (makeWav pcm channels sampleRate).drop 44 = (pcm.map int16ToLEBytes).flatten := by
  rw [makeWav_bytes]
  refine ⟨?_, rfl, ?_, rfl, rfl, rfl, rfl, ?_, ?_, ?_, ?_, rfl, rfl, ?_, rfl⟩
  · trans ((pcm.map int16ToLEBytes).flatten.length + 44)
    · rfl
    · rw [length_flatten_int16]
      omega
  · trans ((36 + pcm.length * 2) % 256 + 256 * ((36 + pcm.length * 2) / 256 % 256) +
      65536 * ((36 + pcm.length * 2) / 65536 % 256) +
      16777216 * ((36 + pcm.length * 2) / 16777216 % 256))
    · rfl
    · omega
  · trans (channels % 256 + 256 * (channels / 256 % 256))
    · rfl
    · omega
  · trans (sampleRate % 256 + 256 * (sampleRate / 256 % 256) +
      65536 * (sampleRate / 65536 % 256) + 16777216 * (sampleRate / 16777216 % 256))
    · rfl
    · omega
  · trans (sampleRate * (channels * 2) % 256 + 256 * (sampleRate * (channels * 2) / 256 % 256) +
      65536 * (sampleRate * (channels * 2) / 65536 % 256) +
      16777216 * (sampleRate * (channels * 2) / 16777216 % 256))
    · rfl
    · generalize hv : sampleRate * (channels * 2) = v at hbr ⊢
      omega
  · trans (channels * 2 % 256 + 256 * (channels * 2 / 256 % 256))
    · rfl
    · omega
  · trans (pcm.length * 2 % 256 + 256 * (pcm.length * 2 / 256 % 256) +
      65536 * (pcm.length * 2 / 65536 % 256) + 16777216 * (pcm.length * 2 / 16777216 % 256))
    · rfl
    · omega

/-- C9 witness: the container for two samples at 8000 Hz mono evaluates to
the expected byte-exact output. -/
theorem c9_wav_container_witness :
    (1 * 2 < 65536 ∧ 8000 * (1 * 2) < 4294967296 ∧ 8000 < 4294967296 ∧
      36 + ([1000, -1000] : List ℤ).length * 2 < 4294967296) ∧
    readU32LE (makeWav [1000, -1000] 1 8000) 24 = 8000 ∧
    (makeWav [1000, -1000] 1 8000).length = 44 + 2 * 2 ∧
    (makeWav [1000, -1000] 1 8000).drop 44 = [232, 3, 24, 252] := by
  have h := c9_wav_container [1000, -1000] 1 8000 (by decide) (by decide) (by decide) (by decide)
  refine ⟨⟨by decide, by decide, by decide, by decide⟩, h.2.2.2.2.2.2.2.2.1, h.1, ?_⟩
  rw [h.2.2.2.2.2.2.2.2.2.2.2.2.2.2]
  decide

/-! ## C5: DecodedBuffer invariants -/

theorem getD_lt_256 {buf : List ℕ} (hb : ∀ b ∈ buf, b < 256) (i : ℕ) : buf.getD i 0 < 256 := by
  rcases lt_or_le i buf.length with h | h
  · rw [List.getD_eq_getElem _ _ h]
    exact hb _ (List.getElem_mem h)
  · rw [List.getD_eq_default _ _ h]
    norm_num

theorem muLawToLinear_bounds (u : ℕ) :
    -32768 ≤ muLawToLinear u ∧ muLawToLinear u ≤ 32768 := by
  have key : ∀ v : Fin 256, -32768 ≤ muLawToLinear v.val ∧ muLawToLinear v.val ≤ 32768 := by
    decide
  have hmod : muLawToLinear u = muLawToLinear (u % 256) := by
    unfold muLawToLinear
    have h : u % 256 % 256 = u % 256 := by omega
    rw [h]
  rw [hmod]
  exact key ⟨u % 256, by omega⟩

theorem aLawToLinear_bounds (u : ℕ) :
    -32768 ≤ aLawToLinear u ∧ aLawToLinear u ≤ 32768 := by
  have key : ∀ v : Fin 256, -32768 ≤ aLawToLinear v.val ∧ aLawToLinear v.val ≤ 32768 := by
    decide
  have hmod : aLawToLinear u = aLawToLinear (u % 256) := by
    unfold aLawToLinear
    have h : u % 256 % 256 = u % 256 := by omega
    rw [h]
  rw [hmod]
  exact key ⟨u % 256, by omega⟩

theorem div_mem_pm_one {m : ℤ} {d : ℚ} (hd : 0 < d) (h1 : -d ≤ (m : ℚ)) (h2 : (m : ℚ) ≤ d) :
    -1 ≤ (m : ℚ) / d ∧ (m : ℚ) / d ≤ 1 := by
  constructor
  · rw [neg_le, ← neg_div, div_le_one hd]
    linarith
  · rw [div_le_one hd]
    exact h2

theorem decodeSample_range (fmt : Fmt) (buf : List ℕ) (off : ℕ)
    (hb : ∀ b ∈ buf, b < 256) (hfmt : ¬(fmt = .vox ∨ fmt = .g721)) :
    (decodeSample fmt buf off = none → fmt = .f32f) ∧
    ∀ q, decodeSample fmt buf off = some q → -1 ≤ q ∧ q ≤ 1 := by
  cases fmt with
  | f8u =>
    refine ⟨fun h => by simp [decodeSample] at h, fun q hq => ?_⟩
    simp only [decodeSample, Option.some.injEq] at hq
    subst hq
    have h0 : (0 : ℚ) ≤ (buf.getD off 0 : ℚ) := by positivity
    have h255 : (buf.getD off 0 : ℚ) ≤ 255 := by
      exact_mod_cast Nat.lt_succ_iff.mp (getD_lt_256 hb off)
    constructor
    · rw [le_div_iff₀ (by norm_num : (0 : ℚ) < 128)]
      linarith
    · rw [div_le_one (by norm_num : (0 : ℚ) < 128)]
      linarith
  | f16le =>
    refine ⟨fun h => by simp [decodeSample] at h, fun q hq => ?_⟩
    simp only [decodeSample, Option.some.injEq] at hq
    subst hq
    exact ⟨clampQ_ge _, clampQ_le _⟩
  | f16be =>
    refine ⟨fun h => by simp [decodeSample] at h, fun q hq => ?_⟩
    simp only [decodeSample, Option.some.injEq] at hq
    subst hq
    exact ⟨clampQ_ge _, clampQ_le _⟩
  | f24le =>
    refine ⟨fun h => by simp [decodeSample] at h, fun q hq => ?_⟩
    simp only [decodeSample, Option.some.injEq] at hq
    subst hq
    exact ⟨clampQ_ge _, clampQ_le _⟩
  | f24be =>
    refine ⟨fun h => by simp [decodeSample] at h, fun q hq => ?_⟩
    simp only [decodeSample, Option.some.injEq] at hq
    subst hq
    exact ⟨clampQ_ge _, clampQ_le _⟩
  | f32le =>
    refine ⟨fun h => by simp [decodeSample] at h, fun q hq => ?_⟩
    simp only [decodeSample, Option.some.injEq] at hq
    subst hq
    exact ⟨clampQ_ge _, clampQ_le _⟩
  | f32f =>
    refine ⟨fun _ => rfl, fun q hq => ?_⟩
    simp only [decodeSample, decodeSample32f] at hq
    split at hq
    · split at hq
      · split at hq
        · rw [Option.some.injEq] at hq
          subst hq
          norm_num
        · rw [Option.some.injEq] at hq
          subst hq
          norm_num
      · exact absurd hq (by simp)
    · rw [Option.some.injEq] at hq
      subst hq
      exact ⟨clampQ_ge _, clampQ_le _⟩
  | mulaw =>
    refine ⟨fun h => by simp [decodeSample] at h, fun q hq => ?_⟩
    simp only [decodeSample, Option.some.injEq] at hq
    subst hq
    have hm := muLawToLinear_bounds (buf.getD off 0)
    refine div_mem_pm_one (by norm_num) ?_ ?_
    · exact_mod_cast hm.1
    · exact_mod_cast hm.2
  | alaw =>
    refine ⟨fun h => by simp [decodeSample] at h, fun q hq => ?_⟩
    simp only [decodeSample, Option.some.injEq] at hq
    subst hq
    have hm := aLawToLinear_bounds (buf.getD off 0)
    refine div_mem_pm_one (by norm_num) ?_ ?_
    · exact_mod_cast hm.1
    · exact_mod_cast hm.2
  | vox => exact absurd (Or.inl rfl) hfmt
  | g721 => exact absurd (Or.inr rfl) hfmt

/-- C5 counterexample: with fewer bytes than one frame, the decoder returns a
single empty channel buffer even for the declared-stereo 16LE candidate, so
the output does not contain one buffer per declared channel. -/
theorem c5_cx_edge_single_channel :
    decodeRawToFloat32 [0] cand16le2 none = .ok [[]] ∧ cand16le2 ∈ candidatesList ∧
      cand16le2.ch = 2 ∧ ¬(([[]] : List (List F32)).length = 2) := by
  exact ⟨rfl, by decide, rfl, by decide⟩

/-- C5 amended: whenever at least one full frame is available, a successful
decode returns exactly `channelCount` channel buffers, all of length equal to
the decoded frame count (hence mutually equal), and every decoded sample is
either a rational in [-1, 1] or — only on the float32 path, for NaN bit
patterns — NaN; when fewer bytes than one frame are available the decoder
instead returns a single empty channel buffer. -/
theorem c5_decoded_buffer_invariants (buf : List ℕ) (cand : Cand) (pf : Option ℕ)
    (out : List (List F32)) (hb : ∀ b ∈ buf, b < 256)
    (hok : decodeRawToFloat32 buf cand pf = .ok out) :
    (totalFramesFor buf cand pf = 0 → out = [[]]) ∧
    (totalFramesFor buf cand pf ≠ 0 →
      out.length = cand.ch ∧ ∀ c ∈ out, c.length = totalFramesFor buf cand pf) ∧
    (∀ c ∈ out, ∀ s ∈ c, (s = none → cand.fmt = .f32f) ∧
      ∀ q, s = some q → -1 ≤ q ∧ q ≤ 1) := by
  simp only [decodeRawToFloat32] at hok
  by_cases h0 : totalFramesFor buf cand pf = 0
  · rw [if_pos h0] at hok
    rw [Except.ok.injEq] at hok
    subst hok
    refine ⟨fun _ => rfl, fun h => absurd h0 h, ?_⟩
    intro c hc s hs
    simp only [List.mem_singleton] at hc
    subst hc
    exact absurd hs (List.not_mem_nil s)
  · rw [if_neg h0] at hok
    by_cases hfmt : cand.fmt = .vox ∨ cand.fmt = .g721
    · rw [if_pos hfmt] at hok
      exact absurd hok (by simp)
    · rw [if_neg hfmt] at hok
      rw [Except.ok.injEq] at hok
      subst hok
      refine ⟨fun h => absurd h h0, fun _ => ⟨by simp, ?_⟩, ?_⟩
      · intro c hc
        rw [List.mem_map] at hc
        obtain ⟨i, _, rfl⟩ := hc
        simp
      · intro c hc s hs
        rw [List.mem_map] at hc
        obtain ⟨ci, _, rfl⟩ := hc
        rw [List.mem_map] at hs
        obtain ⟨i, _, rfl⟩ := hs
        exact decodeSample_range cand.fmt buf _ hb hfmt

/-- C5 witness: a two-frame stereo 16LE decode satisfies the amended
invariants at a concrete input. -/
theorem c5_decoded_buffer_invariants_witness :
    (∀ b ∈ [0, 0, 0, 0], b < 256) ∧
    decodeRawToFloat32 [0, 0, 0, 0] cand16le2 none = .ok [[some 0], [some 0]] ∧
    ([[some 0], [some 0]] : List (List F32)).length = cand16le2.ch ∧
    (∀ c ∈ ([[some 0], [some 0]] : List (List F32)), ∀ s ∈ c,
      (s = none → cand16le2.fmt = .f32f) ∧ ∀ q, s = some q → -1 ≤ q ∧ q ≤ 1) := by
  have hb : ∀ b ∈ [0, 0, 0, 0], b < (256 : ℕ) := by decide
  have hok : decodeRawToFloat32 [0, 0, 0, 0] cand16le2 none = .ok [[some 0], [some 0]] := rfl
  have h := c5_decoded_buffer_invariants [0, 0, 0, 0] cand16le2 none [[some 0], [some 0]] hb hok
  exact ⟨hb, hok, (h.2.1 (by decide)).1, h.2.2⟩

/-! ## C1: the signed16LE round trip -/

theorem flatten_map_singleton {α β : Type} (l : List α) (f : α → β) :
    (l.map fun a => [f a]).flatten = l.map f := by
  induction l with
  | nil => rfl
  | cons a t ih => simp [ih]

theorem getD_range_map {α : Type} (f : ℕ → α) {n i : ℕ} (h : i < n) (d : α) :
    ((List.range n).map f).getD i d = f i := by
  have hlen : i < ((List.range n).map f).length := by simpa using h
  rw [List.getD_eq_getElem _ _ hlen, List.getElem_map, List.getElem_range]

theorem sign16_bounds (v : ℕ) (hv : v < 65536) : -32768 ≤ sign16 v ∧ sign16 v ≤ 32767 := by
  unfold sign16
  split <;> omega

theorem decode16_range_map (bytes : List ℕ) :
    (List.range (bytes.length / 2)).map (fun i => decodeSample .f16le bytes (i * 2)) =
      parse16F bytes := by
  induction bytes using parse16F.induct with
  | case1 b0 b1 rest ih =>
    have hlen : (b0 :: b1 :: rest).length / 2 = rest.length / 2 + 1 := by
      simp only [List.length_cons]
      omega
    rw [hlen, List.range_succ_eq_map, List.map_cons, List.map_map]
    simp only [parse16F]
    have hmap : (List.range (rest.length / 2)).map
        ((fun i => decodeSample .f16le (b0 :: b1 :: rest) (i * 2)) ∘ (· + 1)) =
        (List.range (rest.length / 2)).map (fun i => decodeSample .f16le rest (i * 2)) := by
      apply List.map_congr_left
      intro i _
      show decodeSample .f16le (b0 :: b1 :: rest) ((i + 1) * 2) = decodeSample .f16le rest (i * 2)
      have h2 : (i + 1) * 2 = i * 2 + 1 + 1 := by ring
      rw [h2]
      simp only [decodeSample, List.getD_cons_succ]
    rw [hmap, ih]
    have hhead : decodeSample .f16le (b0 :: b1 :: rest) (0 * 2) =
        some (clampQ ((sign16 (b0 + 256 * b1) : ℚ) / 32768)) := by
      norm_num [decodeSample]
    exact congrArg (fun x => x :: parse16F rest) hhead
  | case2 t h =>
    cases t with
    | nil => rfl
    | cons b0 t2 =>
      cases t2 with
      | nil => simp [parse16F]
      | cons b1 rest => exact absurd rfl (h b0 b1 rest)

theorem encode16Sample_sign16 (s : ℤ) (h1 : -32768 ≤ s) (h2 : s ≤ 32767) :
    encode16Sample (some (clampQ ((s : ℚ) / 32768))) = if 1 ≤ s then s - 1 else s := by
  have hd : (0 : ℚ) < 32768 := by norm_num
  have hlo : (-32768 : ℚ) ≤ (s : ℚ) := by exact_mod_cast h1
  have hhi : (s : ℚ) ≤ 32768 := by
    have : (s : ℚ) ≤ 32767 := by exact_mod_cast h2
    linarith
  have hmem := div_mem_pm_one hd (by linarith) hhi
  have hcl : clampQ ((s : ℚ) / 32768) = (s : ℚ) / 32768 := clampQ_of_mem hmem.1 hmem.2
  have hc : max (-1) (min 1 ((s : ℚ) / 32768)) = (s : ℚ) / 32768 :=
    clampQ_of_mem hmem.1 hmem.2
  simp only [encode16Sample, hcl, hc]
  rcases lt_trichotomy s 0 with hneg | hzero | hpos
  · have hcneg : (s : ℚ) / 32768 < 0 := by
      apply div_neg_of_neg_of_pos _ hd
      exact_mod_cast hneg
    rw [if_pos hcneg, div_mul_cancel₀ _ (by norm_num : (32768 : ℚ) ≠ 0)]
    rw [if_neg (by omega : ¬ 1 ≤ s)]
    unfold truncToZero
    rw [if_neg (by exact_mod_cast not_le.mpr hneg), Int.ceil_intCast]
  · subst hzero
    norm_num [truncToZero]
  · have hcpos : ¬ ((s : ℚ) / 32768 < 0) := by
      rw [not_lt]
      positivity
    rw [if_neg hcpos, if_pos (by omega : 1 ≤ s)]
    have hval : (s : ℚ) / 32768 * 32767 = (s * 32767 : ℚ) / 32768 := by ring
    rw [hval]
    unfold truncToZero
    rw [if_pos (by positivity)]
    rw [Int.floor_eq_iff]
    constructor
    · rw [le_div_iff₀ hd]
      push_cast
      have : (s : ℚ) ≤ 32768 := hhi
      nlinarith [hpos]
    · rw [div_lt_iff₀ hd]
      push_cast
      have hq : (0 : ℚ) < (s : ℚ) := by exact_mod_cast hpos
      nlinarith

theorem int16ToLEBytes_sign16 (b0 b1 : ℕ) (h0 : b0 < 256) (h1 : b1 < 256) :
    int16ToLEBytes (sign16 (b0 + 256 * b1)) = [b0, b1] := by
  simp only [int16ToLEBytes, le16, sign16]
  split <;> simp only [List.cons.injEq, and_true] <;> constructor <;> omega

theorem map_encode_parse16F (bytes : List ℕ) :
    (∀ b ∈ bytes, b < 256) →
    (parse16F bytes).map encode16Sample =
      (bytesToInt16sLE bytes).map (fun s => if 1 ≤ s then s - 1 else s) := by
  induction bytes using parse16F.induct with
  | case1 b0 b1 rest ih =>
    intro hb
    have hb0 : b0 < 256 := hb b0 (by simp)
    have hb1 : b1 < 256 := hb b1 (by simp)
    have hs := sign16_bounds (b0 + 256 * b1) (by omega)
    simp only [parse16F, bytesToInt16sLE, List.map_cons]
    rw [encode16Sample_sign16 _ hs.1 hs.2, ih (fun b hbm => hb b (by simp [hbm]))]
  | case2 t h =>
    intro _
    match t, h with
    | [], _ => rfl
    | [b], _ => rfl
    | b0 :: b1 :: rest, h => exact absurd rfl (h b0 b1 rest)

theorem flatten_serialize_nonpos (bytes : List ℕ) :
    (∀ b ∈ bytes, b < 256) → bytes.length % 2 = 0 →
    (∀ s ∈ bytesToInt16sLE bytes, s ≤ 0) →
    (((bytesToInt16sLE bytes).map (fun s => if 1 ≤ s then s - 1 else s)).map
      int16ToLEBytes).flatten = bytes := by
  induction bytes using parse16F.induct with
  | case1 b0 b1 rest ih =>
    intro hb hlen hnp
    have hb0 : b0 < 256 := hb b0 (by simp)
    have hb1 : b1 < 256 := hb b1 (by simp)
    have hs0 : sign16 (b0 + 256 * b1) ≤ 0 := hnp _ (by simp [bytesToInt16sLE])
    simp only [bytesToInt16sLE, List.map_cons, List.flatten_cons]
    rw [if_neg (by omega : ¬ 1 ≤ sign16 (b0 + 256 * b1)),
      int16ToLEBytes_sign16 b0 b1 hb0 hb1]
    have hrest := ih (fun b hbm => hb b (by simp [hbm]))
      (by simp only [List.length_cons] at hlen; omega)
      (fun s hsm => hnp s (by simp [bytesToInt16sLE, hsm]))
    rw [hrest]
    rfl
  | case2 t h =>
    intro _ hlen _
    match t, h with
    | [], _ => rfl
    | [b], _ => simp at hlen
    | b0 :: b1 :: rest, h => exact absurd rfl (h b0 b1 rest)

/-- C1 counterexample: the signed16LE round trip is lossy on positive
samples — the single-sample buffer for the 16-bit value 1 re-encodes to the
bytes of 0, not the original bytes. -/
theorem c1_cx_lossy_positive :
    decodeRawToFloat32 [1, 0] cand16le1 none = .ok [[some (1 / 32768)]] ∧
    floatTo16PCMInterleaved [[some ((1 : ℚ) / 32768)]] = [0] ∧
    (([(0 : ℤ)].map int16ToLEBytes).flatten = [0, 0]) ∧ ([0, 0] : List ℕ) ≠ [1, 0] := by
  refine ⟨rfl, by decide, by decide, by decide⟩

/-- C1 amended: re-encoding the signed16LE decode of a well-formed buffer
reproduces each 16-bit sample `s` as `s` when `s ≤ 0` and as `s - 1` when
`s ≥ 1` (the non-negative side is scaled by 32767 and truncated); the byte
round trip is exact precisely on buffers whose samples are all
non-positive. -/
theorem c1_roundtrip_amended (bytes : List ℕ) (k : ℕ) (hlen : bytes.length = 2 * k)
    (hb : ∀ b ∈ bytes, b < 256) :
    ∃ out, decodeRawToFloat32 bytes cand16le1 none = .ok out ∧
      floatTo16PCMInterleaved out =
        (bytesToInt16sLE bytes).map (fun s => if 1 ≤ s then s - 1 else s) ∧
      ((∀ s ∈ bytesToInt16sLE bytes, s ≤ 0) →
        ((floatTo16PCMInterleaved out).map int16ToLEBytes).flatten = bytes) := by
  by_cases h0 : bytes.length / 2 = 0
  · have hnil : bytes = [] := List.eq_nil_of_length_eq_zero (by omega)
    subst hnil
    exact ⟨[[]], rfl, rfl, fun _ => rfl⟩
  · have hfmt : ¬(cand16le1.fmt = .vox ∨ cand16le1.fmt = .g721) := by decide
    have htf : totalFramesFor bytes cand16le1 none = bytes.length / 2 := by
      simp [totalFramesFor, cand16le1, mkCand]
    have hdec : decodeRawToFloat32 bytes cand16le1 none =
        .ok [(List.range (bytes.length / 2)).map (fun i => decodeSample .f16le bytes (i * 2))] := by
      simp only [decodeRawToFloat32]
      rw [if_neg (htf ▸ h0), if_neg hfmt, Except.ok.injEq, htf]
      have hch : cand16le1.ch = 1 := rfl
      have hr1 : List.range 1 = [0] := rfl
      rw [hch, hr1, List.map_cons, List.map_nil]
      refine congrArg (fun x => [x]) ?_
      apply List.map_congr_left
      intro i _
      norm_num [cand16le1, mkCand]
    have hsamples : floatTo16PCMInterleaved
        [(List.range (bytes.length / 2)).map (fun i => decodeSample .f16le bytes (i * 2))] =
        (bytesToInt16sLE bytes).map (fun s => if 1 ≤ s then s - 1 else s) := by
      simp only [floatTo16PCMInterleaved, List.headD_cons, List.length_map, List.length_range]
      have h1 : ∀ i ∈ List.range (bytes.length / 2),
          [(List.range (bytes.length / 2)).map (fun j => decodeSample .f16le bytes (j * 2))].map
            (fun c => encode16Sample (c.getD i none)) =
          [encode16Sample (decodeSample .f16le bytes (i * 2))] := by
        intro i hi
        rw [List.mem_range] at hi
        simp only [List.map_cons, List.map_nil]
        rw [getD_range_map _ hi]
      rw [List.map_congr_left h1, flatten_map_singleton]
      have h2 := congrArg (List.map encode16Sample) (decode16_range_map bytes)
      rw [List.map_map] at h2
      exact h2.trans (map_encode_parse16F bytes hb)
    refine ⟨_, hdec, hsamples, fun hnp => ?_⟩
    rw [hsamples]
    exact flatten_serialize_nonpos bytes hb (by omega) hnp

/-- C1 witness: a buffer whose two samples are 0 and -1 (all non-positive)
round-trips byte-exactly through the amended theorem. -/
theorem c1_roundtrip_amended_witness :
    (([0, 0, 255, 255] : List ℕ).length = 2 * 2) ∧ (∀ b ∈ [0, 0, 255, 255], b < 256) ∧
    (∀ s ∈ bytesToInt16sLE [0, 0, 255, 255], s ≤ 0) ∧
    ∃ out, decodeRawToFloat32 [0, 0, 255, 255] cand16le1 none = .ok out ∧
      ((floatTo16PCMInterleaved out).map int16ToLEBytes).flatten = [0, 0, 255, 255] := by
  refine ⟨rfl, by decide, by decide, ?_⟩
  obtain ⟨out, h1, _, h3⟩ := c1_roundtrip_amended [0, 0, 255, 255] 2 rfl (by decide)
  exact ⟨out, h1, h3 (by decide)⟩

/-! ## C4: the 10000-byte 16LE mono preview scenario -/

theorem parse16F_block (rest : List ℕ) :
    parse16F (sineByteBlock ++ rest) = sineSampleBlock ++ parse16F rest := by
  simp only [sineByteBlock, sineSampleBlock, List.cons_append, List.nil_append, parse16F,
    List.cons.injEq]
  refine ⟨by decide, by decide, by decide, by decide, rfl⟩

theorem parse16F_replicate (n : ℕ) :
    parse16F ((List.replicate n sineByteBlock).flatten) =
      (List.replicate n sineSampleBlock).flatten := by
  induction n with
  | zero => rfl
  | succ m ih =>
    rw [List.replicate_succ, List.flatten_cons, parse16F_block, List.replicate_succ,
      List.flatten_cons, ih]

theorem sumF_sine (n : ℕ) : ∀ a : ℚ,
    List.foldl f32add (some a) ((List.replicate n sineSampleBlock).flatten) = some a := by
  induction n with
  | zero => intro a; rfl
  | succ m ih =>
    intro a
    rw [List.replicate_succ, List.flatten_cons, List.foldl_append]
    have hblock : List.foldl f32add (some a) sineSampleBlock = some a := by
      simp only [sineSampleBlock, List.foldl_cons, List.foldl_nil, f32add, Option.some.injEq]
      ring
    rw [hblock]
    exact ih a

theorem sumSqF_sine (n : ℕ) : ∀ a : ℚ,
    List.foldl (fun acc v => f32add acc (f32mul v v)) (some a)
      ((List.replicate n sineSampleBlock).flatten) = some (a + n / 2) := by
  induction n with
  | zero =>
    intro a
    norm_num
  | succ m ih =>
    intro a
    rw [List.replicate_succ, List.flatten_cons, List.foldl_append]
    have hblock : List.foldl (fun acc v => f32add acc (f32mul v v)) (some a) sineSampleBlock =
        some (a + 1 / 2) := by
      simp only [sineSampleBlock, List.foldl_cons, List.foldl_nil, f32mul, f32add,
        Option.some.injEq]
      ring
    rw [hblock, ih (a + 1 / 2)]
    congr 1
    push_cast
    ring

theorem countP_clip_sine (n : ℕ) :
    ((List.replicate n sineSampleBlock).flatten).countP clipPred = 0 := by
  induction n with
  | zero => rfl
  | succ m ih =>
    rw [List.replicate_succ, List.flatten_cons, List.countP_append, ih]
    have hblock : sineSampleBlock.countP clipPred = 0 := by decide
    rw [hblock]

theorem sine_mono_length : ((List.replicate 1250 sineSampleBlock).flatten).length = 5000 := by
  rw [List.length_flatten, List.map_replicate, List.sum_replicate]
  norm_num [sineSampleBlock]

theorem isSilentLike_eq_of (x : List F32) (n : ℕ) (s s2 : ℚ) (hn : x.length = n)
    (h1 : 0 < n) (hs : sumF x = some s) (hs2 : sumSqF x = some s2) :
    isSilentLike x = decide (s2 / (n : ℚ) - s / (n : ℚ) * (s / (n : ℚ)) < 1 / 1000000) := by
  unfold isSilentLike
  rw [hn, hs, hs2, if_neg (by omega)]
  simp [f32divQ, f32sub, f32mul, f32ltc]

theorem isHeavilyClipped_eq_of (x : List F32) (n c : ℕ) (hn : x.length = n) (h1 : 0 < n)
    (hc : x.countP clipPred = c) :
    isHeavilyClipped x = decide ((1 : ℚ) / 4 < (c : ℚ) / (n : ℚ)) := by
  unfold isHeavilyClipped
  rw [hn, hc, if_neg (by omega)]

theorem isScaleWeird_eq_of (x : List F32) (n : ℕ) (s s2 : ℚ) (hn : x.length = n)
    (h1 : 0 < n) (hs : sumF x = some s) (hs2 : sumSqF x = some s2) :
    isScaleWeird x =
      (decide (max 0 (s2 / (n : ℚ) - s / (n : ℚ) * (s / (n : ℚ))) < 1 / 100000000) ||
        decide ((25 : ℚ) < max 0 (s2 / (n : ℚ) - s / (n : ℚ) * (s / (n : ℚ))))) := by
  unfold isScaleWeird
  rw [hn, hs, hs2, if_neg (by omega)]
  simp [f32divQ, f32sub, f32mul, f32max0, f32ltc, f32gtc]

theorem sine_heuristics :
    isSilentLike ((List.replicate 1250 sineSampleBlock).flatten) = false ∧
    isHeavilyClipped ((List.replicate 1250 sineSampleBlock).flatten) = false ∧
    isScaleWeird ((List.replicate 1250 sineSampleBlock).flatten) = false := by
  have hsum : sumF ((List.replicate 1250 sineSampleBlock).flatten) = some 0 := sumF_sine 1250 0
  have hsq : sumSqF ((List.replicate 1250 sineSampleBlock).flatten) = some 625 := by
    have h : sumSqF ((List.replicate 1250 sineSampleBlock).flatten) =
        some (0 + ((1250 : ℕ) : ℚ) / 2) := sumSqF_sine 1250 0
    rw [h]
    norm_num
  have hcount : ((List.replicate 1250 sineSampleBlock).flatten).countP clipPred = 0 :=
    countP_clip_sine 1250
  have hval : (625 : ℚ) / ((5000 : ℕ) : ℚ) -
      (0 : ℚ) / ((5000 : ℕ) : ℚ) * ((0 : ℚ) / ((5000 : ℕ) : ℚ)) = 1 / 8 := by
    push_cast
    norm_num
  refine ⟨?_, ?_, ?_⟩
  · rw [isSilentLike_eq_of _ 5000 0 625 sine_mono_length (by norm_num) hsum hsq, hval]
    simp only [decide_eq_false_iff_not]
    norm_num
  · rw [isHeavilyClipped_eq_of _ 5000 0 sine_mono_length (by norm_num) hcount]
    simp only [decide_eq_false_iff_not]
    push_cast
    norm_num
  · rw [isScaleWeird_eq_of _ 5000 0 625 sine_mono_length (by norm_num) hsum hsq, hval,
      max_eq_right (by norm_num : (0 : ℚ) ≤ 1 / 8)]
    simp only [Bool.or_eq_false_iff, decide_eq_false_iff_not]
    refine ⟨by norm_num, by norm_num⟩

theorem sineBuf_length : sineBuf.length = 10000 := by
  unfold sineBuf
  rw [List.length_flatten, List.map_replicate, List.sum_replicate]
  norm_num [sineByteBlock]

theorem sineBuf_decode :
    decodeRawToFloat32 sineBuf cand16le1 (some 5000) =
      .ok [(List.range 5000).map (fun i => decodeSample .f16le sineBuf (i * 2))] := by
  have hfmt : ¬(cand16le1.fmt = .vox ∨ cand16le1.fmt = .g721) := by decide
  have htf : totalFramesFor sineBuf cand16le1 (some 5000) = 5000 := by
    simp [totalFramesFor, cand16le1, mkCand, sineBuf_length]
  simp only [decodeRawToFloat32]
  rw [htf, if_neg (by norm_num : ¬(5000 = 0)), if_neg hfmt, Except.ok.injEq]
  have hch : cand16le1.ch = 1 := rfl
  have hr1 : List.range 1 = [0] := rfl
  rw [hch, hr1, List.map_cons, List.map_nil]
  refine congrArg (fun x => [x]) ?_
  apply List.map_congr_left
  intro i _
  norm_num [cand16le1, mkCand]

theorem sineBuf_mono :
    (List.range 5000).map (fun i => decodeSample .f16le sineBuf (i * 2)) =
      (List.replicate 1250 sineSampleBlock).flatten := by
  have h5000 : sineBuf.length / 2 = 5000 := by rw [sineBuf_length]
  have h := decode16_range_map sineBuf
  rw [h5000] at h
  rw [h]
  exact parse16F_replicate 1250

/-- C4 counterexample: for the 10000-byte 16LE mono sine buffer at assumed
rate 8000 with one preview second, the preview frame count and the decoded
mono sample count are 5000 — min(5000 available frames, 8000 wanted) — not
the 4000 the claim states. -/
theorem c4_cx_preview_count :
    previewFramesFor sineBuf cand16le1 8000 1 = 5000 ∧
    decodeRawToFloat32 sineBuf cand16le1 (some 5000) =
      .ok [(List.range 5000).map (fun i => decodeSample .f16le sineBuf (i * 2))] ∧
    (downmixMono [(List.range 5000).map
      (fun i => decodeSample .f16le sineBuf (i * 2))]).length = 5000 ∧
    (5000 : ℕ) ≠ 4000 := by
  refine ⟨?_, sineBuf_decode, ?_, by norm_num⟩
  · simp [previewFramesFor, framesAvailable, cand16le1, mkCand, sineBuf_length]
  · show ((List.range 5000).map (fun i => decodeSample .f16le sineBuf (i * 2))).length = 5000
    simp

/-- C4 amended: the 16LE/1ch candidate's preview decode of the 10000-byte
sine buffer produces exactly 5000 samples (min of 5000 available frames and
8000 = assumedSampleRate * previewSeconds wanted frames) and is not filtered
by any heuristic: the variance is 1/8 (above 1e-6), no sample exceeds 0.99
in magnitude, and the standard deviation lies between 1e-4 and 5, so the
verdict carries no hidden reason. -/
theorem c4_amended_sine_preview :
    previewFramesFor sineBuf cand16le1 8000 1 = 5000 ∧
    ∃ out, decodeRawToFloat32 sineBuf cand16le1 (some 5000) = .ok out ∧
      (downmixMono out).length = 5000 ∧
      isSilentLike (downmixMono out) = false ∧
      isHeavilyClipped (downmixMono out) = false ∧
      isScaleWeird (downmixMono out) = false ∧
      (decodePreview sineBuf cand16le1 5000 ⟨true, true, true⟩).hiddenReason = none := by
  have hfmt : ¬(cand16le1.fmt = .vox ∨ cand16le1.fmt = .g721) := by decide
  have hdm : downmixMono
      [(List.range 5000).map (fun i => decodeSample .f16le sineBuf (i * 2))] =
      (List.replicate 1250 sineSampleBlock).flatten := sineBuf_mono
  refine ⟨?_, ⟨_, sineBuf_decode, ?_, ?_, ?_, ?_, ?_⟩⟩
  · simp [previewFramesFor, framesAvailable, cand16le1, mkCand, sineBuf_length]
  · rw [hdm, sine_mono_length]
  · rw [hdm]
    exact sine_heuristics.1
  · rw [hdm]
    exact sine_heuristics.2.1
  · rw [hdm]
    exact sine_heuristics.2.2
  · unfold decodePreview
    rw [if_neg hfmt, sineBuf_decode]
    simp only [tryBody, hdm, sine_heuristics.1, sine_heuristics.2.1, sine_heuristics.2.2]
    simp
